import Mathlib

/-
Shallow embedding of `sphinx_tosca/domain.py` (the single source module of
the sphinx-tosca repository).  Python dicts are modelled as association
lists in insertion order (CPython dicts preserve insertion order); docutils
node trees are modelled by small inductive types carrying exactly the data
the module inspects.
-/

namespace SphinxTosca

/-- ToscaObject from the source: `collections.namedtuple("ToscaObject", ("doc", "typ"))`. -/
structure ToscaObject where
  doc : String
  typ : String
deriving DecidableEq

/-- Lookup of a key in a Python-dict model (first matching key wins; a
well-formed dict has no duplicate keys). -/
def alGet {α : Type} : List (String × α) → String → Option α
  | [], _ => none
  | (k, v) :: rest, n => if k = n then some v else alGet rest n

/-- Python dict assignment `d[n] = v`: replaces the value in place when the
key is present (keeping its position), otherwise appends the new pair. -/
def alSet {α : Type} : List (String × α) → String → α → List (String × α)
  | [], n, v => [(n, v)]
  | (k, w) :: rest, n, v =>
    if k = n then (n, v) :: rest else (k, w) :: alSet rest n v

/-- Well-formedness of the dict model: keys are pairwise distinct, as in a
real Python dict. -/
def keysNodup {α : Type} (t : List (String × α)) : Prop :=
  (t.map Prod.fst).Nodup

instance {α : Type} (t : List (String × α)) : Decidable (keysNodup t) := by
  unfold keysNodup
  infer_instance

theorem alGet_alSet_self {α : Type} (t : List (String × α)) (n : String) (v : α) :
    alGet (alSet t n v) n = some v := by
  induction t with
  | nil => simp [alSet, alGet]
  | cons kv rest ih =>
    obtain ⟨k, w⟩ := kv
    by_cases h : k = n
    · simp [alSet, alGet, h]
    · simp [alSet, alGet, h, ih]

theorem alGet_alSet_ne {α : Type} (t : List (String × α)) (n m : String) (v : α)
    (h : n ≠ m) : alGet (alSet t n v) m = alGet t m := by
  induction t with
  | nil => simp [alSet, alGet, h]
  | cons kv rest ih =>
    obtain ⟨k, w⟩ := kv
    by_cases hk : k = n
    · subst hk
      simp [alSet, alGet, h]
    · simp [alSet, alGet, hk, ih]

theorem alGet_eq_none_of_not_mem_keys {α : Type} (t : List (String × α)) (n : String)
    (h : n ∉ t.map Prod.fst) : alGet t n = none := by
  induction t with
  | nil => rfl
  | cons kv rest ih =>
    obtain ⟨k, w⟩ := kv
    simp only [List.map_cons, List.mem_cons] at h
    push_neg at h
    simp [alGet, Ne.symm h.1, ih h.2]

theorem alSet_map_fst_of_mem {α : Type} (t : List (String × α)) (n : String) (v : α)
    (h : n ∈ t.map Prod.fst) : (alSet t n v).map Prod.fst = t.map Prod.fst := by
  induction t with
  | nil => simp at h
  | cons kv rest ih =>
    obtain ⟨k, w⟩ := kv
    by_cases hk : k = n
    · simp [alSet, hk]
    · simp only [List.map_cons, List.mem_cons] at h
      rcases h with h | h

      · exact absurd h.symm hk
      · simp [alSet, hk, ih h]

theorem alSet_map_fst_of_not_mem {α : Type} (t : List (String × α)) (n : String) (v : α)
    (h : n ∉ t.map Prod.fst) : (alSet t n v).map Prod.fst = t.map Prod.fst ++ [n] := by
  induction t with
  | nil => simp [alSet]
  | cons kv rest ih =>
    obtain ⟨k, w⟩ := kv
    simp only [List.map_cons, List.mem_cons] at h
    push_neg at h
    simp [alSet, Ne.symm h.1, ih h.2]

theorem keysNodup_alSet {α : Type} (t : List (String × α)) (n : String) (v : α)
    (h : keysNodup t) : keysNodup (alSet t n v) := by
  unfold keysNodup at *
  by_cases hm : n ∈ t.map Prod.fst
  · rw [alSet_map_fst_of_mem t n v hm]
    exact h
  · rw [alSet_map_fst_of_not_mem t n v hm]
    simp [List.nodup_append, h, hm]

theorem alSet_eq_self {α : Type} (t : List (String × α)) (n : String) (v : α)
    (hget : alGet t n = some v) : alSet t n v = t := by
  induction t with
  | nil => simp [alGet] at hget
  | cons kv rest ih =>
    obtain ⟨k, w⟩ := kv
    by_cases hk : k = n
    · subst hk
      simp only [alGet, if_pos, Option.some.injEq] at hget
      simp [alSet, hget]
    · simp only [alGet, if_neg hk] at hget
      simp [alSet, hk, ih hget]

/-! ## Content normalizer: `_split_content` and `_group_fields` -/

/-- Child of a docutils field body.  A body holds arbitrary nodes (`atom`);
`_group_fields` may additionally append whole `nodes.field` children (a
field-name text plus a body) into a body when a single-token field was
stored first (`subField`). -/
inductive BodyChild where
  | atom (s : String)
  | subField (name : String) (body : List BodyChild)

/-- Children list of a `nodes.field_body`. -/
abbrev FieldBody := List BodyChild

/-- One entry of a `nodes.field_list`: a `nodes.field` whose two children
are a field name (its `astext()` rendering) and a field body. -/
structure FieldEntry where
  name : String
  body : FieldBody

/-- Top-level child of the parsed directive content: either a
`nodes.field_list` (holding its field entries) or any other node. -/
inductive ContentChild where
  | fieldListNode (fields : List FieldEntry)
  | otherNode (tag : String)

/-- True exactly on `nodes.field_list` children (the `isinstance` test in
`_split_content`). -/
def isFieldList : ContentChild → Bool
  | .fieldListNode _ => true
  | .otherNode _ => false

/-- Field entries carried by a child: the entries of a field list, nothing
for other nodes. -/
def fieldsOf : ContentChild → List FieldEntry
  | .fieldListNode fs => fs
  | .otherNode _ => []

/-- Embedding of `_split_content`: walks the children in order, flattening
each field list into the collected field entries and appending every other
child to the fresh body container. -/
def _split_content : List ContentChild → List ContentChild × List FieldEntry
  | [] => ([], [])
  | c :: cs =>
    let rest := _split_content cs
    match c with
    | .fieldListNode fs => (rest.1, fs ++ rest.2)
    | .otherNode t => (.otherNode t :: rest.1, rest.2)

/-- SECTION_MAPPING from the source: an ordered dict from section key to
display label, in declaration order. -/
def SECTION_MAPPING : List (String × String) :=
  [("parents", "Parents"),
   ("property", "Properties"),
   ("attribute", "Attributes"),
   ("relationship", "Relationships")]

/-- Helper for `splitWs`: scans the characters, accumulating the current
word (reversed) and emitting words at whitespace boundaries. -/
def wordsAux : List Char → List Char → List String
  | [], acc => if acc.isEmpty then [] else [String.mk acc.reverse]
  | c :: cs, acc =>
    if c.isWhitespace then
      if acc.isEmpty then wordsAux cs [] else String.mk acc.reverse :: wordsAux cs []
    else wordsAux cs (c :: acc)

/-- Python `str.split()` with no argument: splits on runs of whitespace and
drops empty pieces (used on `name.astext()` in `_group_fields`). -/
def splitWs (s : String) : List String :=
  wordsAux s.data []

/-- Value stored under one section key of the `content` defaultdict in
`_group_fields`: either the accumulating `nodes.field_list` of sub-fields
(the defaultdict's default is the empty such list), or a field body stored
by a single-token field (`content[key] = body`). -/
inductive SectionContent where
  | subList (items : List (String × FieldBody))
  | wholeBody (body : FieldBody)

/-- The `content` defaultdict of `_group_fields`, keyed by section key. -/
abbrev SectionMap := List (String × SectionContent)

/-- Read of `content[key]`: a missing key yields the defaultdict's default,
an empty field list. -/
def sectionGetD (m : SectionMap) (k : String) : SectionContent :=
  (alGet m k).getD (SectionContent.subList [])

/-- Python `len(node)` on the stored section content: the number of child
nodes (sub-fields of a field list, or children of a field body). -/
def contentLen : SectionContent → Nat
  | .subList l => l.length
  | .wholeBody b => b.length

/-- The `.append` call on `content[key]` for a multi-token field: appends a
new `nodes.field` (named by the second token) as a child of whatever node
is stored — a field list gains a sub-field, a field body gains a nested
field child. -/
def sectionAppend : SectionContent → String → FieldBody → SectionContent
  | .subList l, n, b => .subList (l ++ [(n, b)])
  | .wholeBody bd, n, b => .wholeBody (bd ++ [.subField n b])

/-- One iteration of the first loop of `_group_fields`.  `none` models the
`IndexError` raised by `field_parts[0]` when the name has no tokens. -/
def groupStep (m : SectionMap) (f : FieldEntry) : Option SectionMap :=
  match splitWs f.name with
  | [] => none
  | [key] => some (alSet m key (.wholeBody f.body))
  | key :: second :: _ =>
    some (alSet m key (sectionAppend (sectionGetD m key) second f.body))

/-- The first loop of `_group_fields` over all field pairs. -/
def groupFieldsAux : SectionMap → List FieldEntry → Option SectionMap
  | m, [] => some m
  | m, f :: fs =>
    match groupStep m f with
    | none => none
    | some m' => groupFieldsAux m' fs

/-- Body of one emitted top-level field: the stored field body itself when
the section held a whole-section body (`isinstance(items, field_body)`), or
a fresh field body wrapping the accumulated field list otherwise. -/
inductive OutputBody where
  | direct (b : FieldBody)
  | wrapped (items : List (String × FieldBody))

/-- Wraps stored section content for emission, as in the second loop of
`_group_fields`. -/
def wrapOut : SectionContent → OutputBody
  | .wholeBody b => .direct b
  | .subList l => .wrapped l

/-- The second loop of `_group_fields`: iterates the section mapping in
declaration order and emits one labelled field per key whose stored content
is non-empty. -/
def emitSectionsAux (m : SectionMap) : List (String × String) → List (String × OutputBody)
  | [] => []
  | (sid, label) :: rest =>
    if 0 < contentLen (sectionGetD m sid) then
      (label, wrapOut (sectionGetD m sid)) :: emitSectionsAux m rest
    else emitSectionsAux m rest

/-- Emission over the full section mapping. -/
def emitSections (m : SectionMap) : List (String × OutputBody) :=
  emitSectionsAux m SECTION_MAPPING

/-- Embedding of `_group_fields`: groups the field pairs by first name
token, then emits the known sections in fixed order.  `none` models the
`IndexError` on an empty field name. -/
def _group_fields (fields : List FieldEntry) : Option (List (String × OutputBody)) :=
  (groupFieldsAux [] fields).map emitSections

/-! ## Type registry: `ToscaNodeType.run` (registration part) and `ToscaDomain` -/

/-- Registry table `env.domaindata["tosca"]["objects"]`: a Python dict from
type name to `ToscaObject`, modelled in insertion order. -/
abbrev Objects := List (String × ToscaObject)

/-- Warning text of the duplicate branch:
`"duplicate TOSCA type {}, other in {}".format(name, path)`. -/
def dupWarning (name path : String) : String :=
  "duplicate TOSCA type " ++ name ++ ", other in " ++ path

namespace ToscaNodeType

/-- Embedding of the registration part of `ToscaNodeType.run` (the
`if name not in self.state.document.ids` block): when the name is new to
the document id table, a duplicate already in the objects table triggers a
warning naming the prior owner's document path (`env.doc2path`, passed in
as the host's path function), and the table entry is then assigned
unconditionally.  Returns the updated table and the emitted warning, if
any. -/
def run_register (docIds : List String) (doc2path : String → String)
    (objects : Objects) (docname objtype name : String) :
    Objects × Option String :=
  if name ∈ docIds then (objects, none)
  else
    match alGet objects name with
    | some old =>
      (alSet objects name ⟨docname, objtype⟩,
       some (dupWarning name (doc2path old.doc)))
    | none => (alSet objects name ⟨docname, objtype⟩, none)

end ToscaNodeType

namespace ToscaDomain

/-- Embedding of `ToscaDomain.clear_doc`: keeps exactly the entries whose
`doc` differs from the cleared document name. -/
def clear_doc (objects : Objects) (docname : String) : Objects :=
  objects.filter (fun p => p.2.doc ≠ docname)

/-- Embedding of `ToscaDomain.merge_domaindata`: folds over the incoming
table in order, adopting (dict-assigning) exactly the entries whose object
document is one of the owned docnames. -/
def merge_domaindata (docnames : List String) (objects otherObjects : Objects) :
    Objects :=
  otherObjects.foldl
    (fun acc p => if p.2.doc ∈ docnames then alSet acc p.1 p.2 else acc)
    objects

/-- Reference node produced by `sphinx.util.nodes.make_refnode`, keeping
the arguments the module passes to it. -/
structure RefNode where
  fromdoc : String
  todoc : String
  targetid : String
  child : String
deriving DecidableEq

/-- Host helper `make_refnode(builder, fromdoc, todoc, targetid, child, title)`
as invoked by the module (targetid and title are both the target name). -/
def make_refnode (fromdoc todoc targetid child : String) : RefNode :=
  ⟨fromdoc, todoc, targetid, child⟩

/-- Embedding of `ToscaDomain.resolve_xref`: exact lookup; `none` when the
target is absent, otherwise a reference node into the owning document. -/
def resolve_xref (objects : Objects) (fromdoc target cont : String) :
    Option RefNode :=
  match alGet objects target with
  | none => none
  | some obj => some (make_refnode fromdoc obj.doc target cont)

/-- Host method `Domain.role_for_objtype` instantiated at this domain's
declared `object_types = {"node_type": ObjType("node_type", "node_type")}`:
the role for objtype `"node_type"` is `"node_type"`, any other objtype has
no role. -/
def role_for_objtype (objtype : String) : Option String :=
  if objtype = "node_type" then some "node_type" else none

/-- Embedding of `ToscaDomain.resolve_any_xref`.  `Except.error` models the
`TypeError` Python would raise concatenating `None` when the stored objtype
has no role; an absent target returns Python `None` (`Except.ok none`), a
hit returns a one-element list (`Except.ok (some [...])`) whose role id is
the domain name `"tosca"`, a colon, and the role. -/
def resolve_any_xref (objects : Objects) (fromdoc target cont : String) :
    Except String (Option (List (String × RefNode))) :=
  match alGet objects target with
  | none => .ok none
  | some obj =>
    match role_for_objtype obj.typ with
    | none => .error "TypeError"
    | some role =>
      .ok (some [("tosca" ++ ":" ++ role, make_refnode fromdoc obj.doc target cont)])

/-- One tuple yielded by `ToscaDomain.get_objects`:
`(name, dispname, type, docname, anchor, priority)`. -/
structure IndexEntry where
  name : String
  dispname : String
  typ : String
  docname : String
  anchor : String
  priority : Nat
deriving DecidableEq

/-- Embedding of `ToscaDomain.get_objects`: yields
`(name, name, typ, doc, name, 1)` for each table entry in order. -/
def get_objects (objects : Objects) : List IndexEntry :=
  objects.map (fun p => ⟨p.1, p.1, p.2.typ, p.2.doc, p.1, 1⟩)

end ToscaDomain

/-- True on field pairs whose first name token is one of the four known
section keys of `SECTION_MAPPING` (the only keys the emission loop of
`_group_fields` reads). -/
def isKnownField (f : FieldEntry) : Bool :=
  match splitWs f.name with
  | [] => false
  | k :: _ => decide (k ∈ SECTION_MAPPING.map Prod.fst)

/-! ## Supporting lemmas -/

theorem filter_key_eq_nil {α : Type} (t : List (String × α)) (n : String)
    (h : n ∉ t.map Prod.fst) :
    t.filter (fun p => p.1 = n) = [] := by
  induction t with
  | nil => rfl
  | cons kv rest ih =>
    obtain ⟨k, w⟩ := kv
    simp only [List.map_cons, List.mem_cons] at h
    push_neg at h
    simp [List.filter, Ne.symm h.1, ih h.2]

theorem alSet_filter_key {α : Type} (t : List (String × α)) (n : String) (v old : α)
    (hnd : keysNodup t) (hget : alGet t n = some old) :
    (alSet t n v).filter (fun p => p.1 = n) = [(n, v)] := by
  induction t with
  | nil => simp [alGet] at hget
  | cons kv rest ih =>
    obtain ⟨k, w⟩ := kv
    unfold keysNodup at hnd
    simp only [List.map_cons, List.nodup_cons] at hnd
    by_cases hk : k = n
    · subst hk
      simp only [alSet, if_pos]
      simp [List.filter, filter_key_eq_nil rest k hnd.1]
    · simp only [alGet, if_neg hk] at hget
      simp [alSet, hk, List.filter, ih hnd.2 hget]

theorem alGet_of_mem {α : Type} (t : List (String × α)) (k : String) (v : α)
    (hnd : keysNodup t) (hm : (k, v) ∈ t) : alGet t k = some v := by
  induction t with
  | nil => simp at hm
  | cons kv rest ih =>
    obtain ⟨k', w⟩ := kv
    unfold keysNodup at hnd
    simp only [List.map_cons, List.nodup_cons] at hnd
    rcases List.mem_cons.mp hm with h | h
    · injection h with h1 h2
      subst h1
      subst h2
      simp [alGet]
    · have hk : k' ≠ k := by
        intro he
        exact hnd.1 (he ▸ (List.mem_map_of_mem Prod.fst h))
      simp [alGet, hk, ih hnd.2 h]

theorem get_objects_filter_name (t : Objects) (n : String) :
    (ToscaDomain.get_objects t).filter (fun e => e.name = n) =
      (t.filter (fun p => p.1 = n)).map
        (fun p => ⟨p.1, p.1, p.2.typ, p.2.doc, p.1, 1⟩) := by
  induction t with
  | nil => rfl
  | cons kv rest ih =>
    obtain ⟨k, w⟩ := kv
    by_cases hk : k = n
    · simp [ToscaDomain.get_objects, List.filter, hk] at ih ⊢
      exact ih
    · simp [ToscaDomain.get_objects, List.filter, hk] at ih ⊢
      exact ih

/-! ## Claims -/

/-- C6: `_split_content` partitions the top-level children: the body keeps
all non-field-list children in their original order and drops every field
list, the collected field pairs are the concatenation of the field lists'
entries in traversal order, and a tree without field lists comes back
unchanged with an empty field list. -/
theorem claim_C6 (l : List ContentChild) :
    (_split_content l).1 = l.filter (fun c => !(isFieldList c))
    ∧ (_split_content l).2 = (l.map fieldsOf).flatten
    ∧ ((∀ c ∈ l, isFieldList c = false) → _split_content l = (l, [])) := by
  refine ⟨?_, ?_, ?_⟩
  · induction l with
    | nil => rfl
    | cons c cs ih =>
      cases c with
      | fieldListNode fs => simpa [_split_content, List.filter, isFieldList] using ih
      | otherNode t => simpa [_split_content, List.filter, isFieldList] using ih
  · induction l with
    | nil => rfl
    | cons c cs ih =>
      cases c with
      | fieldListNode fs => simpa [_split_content, fieldsOf] using ih
      | otherNode t => simpa [_split_content, fieldsOf] using ih
  · intro hall
    induction l with
    | nil => rfl
    | cons c cs ih =>
      cases c with
      | fieldListNode fs => simpa [isFieldList] using hall (.fieldListNode fs) (by simp)
      | otherNode t =>
        have := ih (fun c hc => hall c (List.mem_cons_of_mem _ hc))
        simp [_split_content, this]

/-- C6 witness: a concrete two-child tree without field lists is returned
unchanged with no field pairs. -/
theorem claim_C6_witness :
    _split_content [ContentChild.otherNode "para", ContentChild.otherNode "note"] =
      ([ContentChild.otherNode "para", ContentChild.otherNode "note"], []) :=
  (claim_C6 [ContentChild.otherNode "para", ContentChild.otherNode "note"]).2.2
    (by decide)

/-- C8: `clear_doc` keeps exactly the entries whose document differs from
the cleared id (in their original order, as a sublist), re-clearing is a
no-op, and clearing an id with no matching entries leaves the table
unchanged. -/
theorem claim_C8 (objects : Objects) (docname : String) :
    (∀ p : String × ToscaObject,
        p ∈ ToscaDomain.clear_doc objects docname ↔ p ∈ objects ∧ p.2.doc ≠ docname)
    ∧ List.Sublist (ToscaDomain.clear_doc objects docname) objects
    ∧ ToscaDomain.clear_doc (ToscaDomain.clear_doc objects docname) docname =
        ToscaDomain.clear_doc objects docname
    ∧ ((∀ p ∈ objects, p.2.doc ≠ docname) →
        ToscaDomain.clear_doc objects docname = objects) := by
  refine ⟨?_, ?_, ?_, ?_⟩
  · intro p
    simp [ToscaDomain.clear_doc, List.mem_filter]
  · exact List.filter_sublist _
  · apply List.filter_eq_self.mpr
    intro p hp
    have := (List.mem_filter.mp hp).2
    simpa using this
  · intro hall
    apply List.filter_eq_self.mpr
    intro p hp
    simpa using hall p hp

/-- C8 witness: clearing "docA" from a concrete two-entry table removes
exactly the "docA" entry, and re-clearing changes nothing. -/
theorem claim_C8_witness :
    (("b", ToscaObject.mk "docB" "node_type") ∈
        ToscaDomain.clear_doc
          [("a", ⟨"docA", "node_type"⟩), ("b", ⟨"docB", "node_type"⟩)] "docA"
      ↔ ("b", ToscaObject.mk "docB" "node_type") ∈
          ([("a", ⟨"docA", "node_type"⟩), ("b", ⟨"docB", "node_type"⟩)] : Objects)
        ∧ "docB" ≠ "docA")
    ∧ ToscaDomain.clear_doc [("b", ToscaObject.mk "docB" "node_type")] "docA" =
        [("b", ToscaObject.mk "docB" "node_type")] :=
  ⟨(claim_C8 [("a", ⟨"docA", "node_type"⟩), ("b", ⟨"docB", "node_type"⟩)] "docA").1 _,
   (claim_C8 [("b", ⟨"docB", "node_type"⟩)] "docA").2.2.2 (by decide)⟩

/-- C10: `get_objects` yields exactly one tuple per table entry (the i-th
tuple comes from the i-th entry), and every tuple has display name and
anchor equal to the type name and priority 1. -/
theorem claim_C10 (objects : Objects) :
    (ToscaDomain.get_objects objects).length = objects.length
    ∧ (∀ i : Nat,
        (ToscaDomain.get_objects objects)[i]? =
          (objects[i]?).map (fun p => ⟨p.1, p.1, p.2.typ, p.2.doc, p.1, 1⟩))
    ∧ (∀ e ∈ ToscaDomain.get_objects objects,
        e.dispname = e.name ∧ e.anchor = e.name ∧ e.priority = 1) := by
  refine ⟨by simp [ToscaDomain.get_objects], ?_, ?_⟩
  · intro i
    simp [ToscaDomain.get_objects]
  · intro e he
    simp only [ToscaDomain.get_objects, List.mem_map] at he
    obtain ⟨p, _, rfl⟩ := he
    exact ⟨rfl, rfl, rfl⟩

/-- C10 witness: the tuple enumerated from a concrete one-entry table has
display name and anchor "n" and priority 1. -/
theorem claim_C10_witness :
    (ToscaDomain.IndexEntry.mk "n" "n" "node_type" "docA" "n" 1).dispname =
        (ToscaDomain.IndexEntry.mk "n" "n" "node_type" "docA" "n" 1).name
    ∧ (ToscaDomain.IndexEntry.mk "n" "n" "node_type" "docA" "n" 1).anchor =
        (ToscaDomain.IndexEntry.mk "n" "n" "node_type" "docA" "n" 1).name
    ∧ (ToscaDomain.IndexEntry.mk "n" "n" "node_type" "docA" "n" 1).priority = 1 :=
  (claim_C10 [("n", ⟨"docA", "node_type"⟩)]).2.2
    ⟨"n", "n", "node_type", "docA", "n", 1⟩ (by decide)

/-- C1 counterexample: with the name "t" already registered from "docA",
running the directive again from "docB" does NOT keep the original entry —
the table now maps "t" to the second registration, so the claim that
lookups still return the first registration's object is false (a warning is
emitted all the same). -/
theorem claim_C1_counterexample :
    (ToscaNodeType.run_register [] (fun d => d ++ ".rst")
        [("t", ⟨"docA", "node_type"⟩)] "docB" "node_type" "t").2 ≠ none
    ∧ alGet (ToscaNodeType.run_register [] (fun d => d ++ ".rst")
        [("t", ⟨"docA", "node_type"⟩)] "docB" "node_type" "t").1 "t" ≠
        some ⟨"docA", "node_type"⟩
    ∧ alGet (ToscaNodeType.run_register [] (fun d => d ++ ".rst")
        [("t", ⟨"docA", "node_type"⟩)] "docB" "node_type" "t").1 "t" =
        some ⟨"docB", "node_type"⟩ := by
  refine ⟨?_, ?_, ?_⟩ <;> decide

/-- C1 amended: when a second directive declares a type name already in the
objects table (and new to the document id table), a warning naming the
first owner's document path is emitted, but the table entry is overwritten
by the second registration (last write wins), so lookups afterwards return
the second registration's object. -/
theorem claim_C1_amended (docIds : List String) (doc2path : String → String)
    (objects : Objects) (docname objtype name : String) (old : ToscaObject)
    (hids : name ∉ docIds) (hget : alGet objects name = some old) :
    (ToscaNodeType.run_register docIds doc2path objects docname objtype name).2 =
        some (dupWarning name (doc2path old.doc))
    ∧ alGet (ToscaNodeType.run_register docIds doc2path objects docname objtype name).1
        name = some ⟨docname, objtype⟩ := by
  unfold ToscaNodeType.run_register
  rw [if_neg hids, hget]
  exact ⟨rfl, alGet_alSet_self ..⟩

/-- C1 amended witness: concrete duplicate registration of "t" from "docB"
over an entry from "docA". -/
theorem claim_C1_amended_witness :
    (ToscaNodeType.run_register [] (fun d => d ++ ".rst")
        [("t", ⟨"docA", "node_type"⟩)] "docB" "node_type" "t").2 =
        some (dupWarning "t" "docA.rst")
    ∧ alGet (ToscaNodeType.run_register [] (fun d => d ++ ".rst")
        [("t", ⟨"docA", "node_type"⟩)] "docB" "node_type" "t").1 "t" =
        some ⟨"docB", "node_type"⟩ :=
  claim_C1_amended [] (fun d => d ++ ".rst") [("t", ⟨"docA", "node_type"⟩)]
    "docB" "node_type" "t" ⟨"docA", "node_type"⟩ (by decide) (by decide)

/-- C2: registering a name already present in the registry (owned by a
different document) emits the non-fatal duplicate warning built from the
first declaration's document path, and afterwards the enumeration yields
that name in exactly one tuple, whose document is the second (overwriting)
one. -/
theorem claim_C2 (docIds : List String) (doc2path : String → String)
    (objects : Objects) (docname objtype name : String) (old : ToscaObject)
    (hnd : keysNodup objects) (hids : name ∉ docIds)
    (hget : alGet objects name = some old) (hdiff : old.doc ≠ docname) :
    (ToscaNodeType.run_register docIds doc2path objects docname objtype name).2 =
        some (dupWarning name (doc2path old.doc))
    ∧ (ToscaDomain.get_objects
          (ToscaNodeType.run_register docIds doc2path objects docname objtype name).1
       ).filter (fun e => e.name = name) =
        [⟨name, name, objtype, docname, name, 1⟩] := by
  unfold ToscaNodeType.run_register
  rw [if_neg hids, hget]
  refine ⟨rfl, ?_⟩
  rw [get_objects_filter_name, alSet_filter_key objects name _ old hnd hget]
  rfl

/-- C2 witness: concrete duplicate registration; the enumeration of the
updated table lists "t" once, pointing at "docB". -/
theorem claim_C2_witness :
    (ToscaNodeType.run_register [] (fun d => d ++ ".rst")
        [("u", ⟨"docC", "node_type"⟩), ("t", ⟨"docA", "node_type"⟩)]
        "docB" "node_type" "t").2 =
        some (dupWarning "t" "docA.rst")
    ∧ (ToscaDomain.get_objects
          (ToscaNodeType.run_register [] (fun d => d ++ ".rst")
            [("u", ⟨"docC", "node_type"⟩), ("t", ⟨"docA", "node_type"⟩)]
            "docB" "node_type" "t").1
       ).filter (fun e => e.name = "t") =
        [⟨"t", "t", "node_type", "docB", "t", 1⟩] :=
  claim_C2 [] (fun d => d ++ ".rst")
    [("u", ⟨"docC", "node_type"⟩), ("t", ⟨"docA", "node_type"⟩)]
    "docB" "node_type" "t" ⟨"docA", "node_type"⟩
    (by decide) (by decide) (by decide) (by decide)

/-- C3 counterexample: for the field name "property foo bar" (three
tokens), the sub-field appended under Properties is named "foo" — the
second token alone — not "foo bar" as the claim ("formed from all the
remaining tokens") requires. -/
theorem claim_C3_counterexample :
    _group_fields [⟨"property foo bar", [.atom "v"]⟩] =
      some [("Properties", .wrapped [("foo", [.atom "v"])])]
    ∧ "foo" ≠ "foo bar" :=
  ⟨rfl, by decide⟩

/-- C3 amended: for a field pair whose name splits into more than one
token, the first token is the section key and the appended sub-field is
named by the second token only; tokens after the second are discarded. -/
theorem claim_C3_amended (m : SectionMap) (f : FieldEntry)
    (key second : String) (more : List String) (l : List (String × FieldBody))
    (hsplit : splitWs f.name = key :: second :: more)
    (hcur : sectionGetD m key = .subList l) :
    groupStep m f = some (alSet m key (.subList (l ++ [(second, f.body)]))) := by
  unfold groupStep
  rw [hsplit]
  show some (alSet m key (sectionAppend (sectionGetD m key) second f.body)) =
    some (alSet m key (.subList (l ++ [(second, f.body)])))
  rw [hcur]
  rfl

/-- C3 amended witness: the three-token name "property foo bar" appends the
sub-field ("foo", body) under the key "property". -/
theorem claim_C3_amended_witness :
    groupStep [] ⟨"property foo bar", [.atom "v"]⟩ =
      some (alSet [] "property" (.subList [("foo", [.atom "v"])])) :=
  claim_C3_amended [] ⟨"property foo bar", [.atom "v"]⟩ "property" "foo" ["bar"] []
    (by decide) rfl

/-- C9 counterexample: on an absent target, `resolve_any_xref` returns
Python `None` (modelled `Except.ok none`), which is not an empty list — the
claim that it "returns a list: empty when the name is absent" is false. -/
theorem claim_C9_counterexample :
    ToscaDomain.resolve_any_xref [] "doc" "missing" "c" = .ok none
    ∧ (Except.ok (none : Option (List (String × ToscaDomain.RefNode))) :
        Except String (Option (List (String × ToscaDomain.RefNode)))) ≠
        .ok (some []) :=
  ⟨rfl, by intro h; injection h with h; exact Option.noConfusion h⟩

/-- C9 amended: `resolve_any_xref` returns Python None (no list) when the
target name is absent; on a hit whose stored objtype is "node_type" it
returns a single-element list pairing the reference with the role id
"tosca:node_type" (the domain name joined to the stored objtype's role);
`resolve_xref` on an absent name returns None without raising. -/
theorem claim_C9_amended (objects : Objects) (fromdoc target cont : String) :
    (alGet objects target = none →
        ToscaDomain.resolve_any_xref objects fromdoc target cont = .ok none
        ∧ ToscaDomain.resolve_xref objects fromdoc target cont = none)
    ∧ (∀ obj : ToscaObject, alGet objects target = some obj →
        obj.typ = "node_type" →
        ToscaDomain.resolve_any_xref objects fromdoc target cont =
          .ok (some [("tosca:node_type",
            ToscaDomain.make_refnode fromdoc obj.doc target cont)])) := by
  constructor
  · intro h
    constructor
    · unfold ToscaDomain.resolve_any_xref
      rw [h]
    · unfold ToscaDomain.resolve_xref
      rw [h]
  · intro obj hget htyp
    unfold ToscaDomain.resolve_any_xref
    rw [hget]
    simp [ToscaDomain.role_for_objtype, htyp]

/-- C9 amended witness: a miss on the empty table returns None for both
resolvers; a hit on a one-entry table returns the singleton list with role
id "tosca:node_type". -/
theorem claim_C9_amended_witness :
    (ToscaDomain.resolve_any_xref [] "d" "missing" "c" = .ok none
      ∧ ToscaDomain.resolve_xref [] "d" "missing" "c" = none)
    ∧ ToscaDomain.resolve_any_xref [("x", ⟨"docA", "node_type"⟩)] "d" "x" "c" =
        .ok (some [("tosca:node_type", ToscaDomain.make_refnode "d" "docA" "x" "c")]) :=
  ⟨(claim_C9_amended [] "d" "missing" "c").1 (by decide),
   (claim_C9_amended [("x", ⟨"docA", "node_type"⟩)] "d" "x" "c").2
     ⟨"docA", "node_type"⟩ (by decide) (by decide)⟩

theorem emitSectionsAux_map_fst_sublist (m : SectionMap) (ks : List (String × String)) :
    List.Sublist ((emitSectionsAux m ks).map Prod.fst) (ks.map Prod.snd) := by
  induction ks with
  | nil => simp [emitSectionsAux]
  | cons p rest ih =>
    obtain ⟨sid, label⟩ := p
    by_cases h : 0 < contentLen (sectionGetD m sid)
    · simpa [emitSectionsAux, h] using List.Sublist.cons₂ label ih
    · simpa [emitSectionsAux, h] using List.Sublist.cons label ih

theorem emitSectionsAux_mem_map_fst (m : SectionMap) (ks : List (String × String))
    (label : String) (h : label ∈ (emitSectionsAux m ks).map Prod.fst) :
    ∃ sid, (sid, label) ∈ ks ∧ 0 < contentLen (sectionGetD m sid) := by
  induction ks with
  | nil => simp [emitSectionsAux] at h
  | cons p rest ih =>
    obtain ⟨sid, lab⟩ := p
    by_cases hc : 0 < contentLen (sectionGetD m sid)
    · simp only [emitSectionsAux, if_pos hc, List.map_cons, List.mem_cons] at h
      rcases h with rfl | h
      · exact ⟨sid, by simp, hc⟩
      · obtain ⟨sid', hm, hc'⟩ := ih h
        exact ⟨sid', List.mem_cons_of_mem _ hm, hc'⟩
    · simp only [emitSectionsAux, if_neg hc] at h
      obtain ⟨sid', hm, hc'⟩ := ih h
      exact ⟨sid', List.mem_cons_of_mem _ hm, hc'⟩

theorem groupStep_alGet_of_head_ne (m m' : SectionMap) (f : FieldEntry) (sid : String)
    (hstep : groupStep m f = some m')
    (hne : (splitWs f.name).head? ≠ some sid) :
    alGet m' sid = alGet m sid := by
  unfold groupStep at hstep
  cases hs : splitWs f.name with
  | nil =>
    rw [hs] at hstep
    exact Option.noConfusion hstep
  | cons k rest =>
    rw [hs] at hstep hne
    simp only [List.head?_cons, ne_eq, Option.some.injEq] at hne
    cases rest with
    | nil =>
      injection hstep with hstep
      rw [← hstep]
      exact alGet_alSet_ne m k sid _ hne
    | cons second tail =>
      injection hstep with hstep
      rw [← hstep]
      exact alGet_alSet_ne m k sid _ hne

theorem groupFieldsAux_alGet_untouched (fs : List FieldEntry) :
    ∀ (m m' : SectionMap) (sid : String),
    groupFieldsAux m fs = some m' →
    (∀ f ∈ fs, (splitWs f.name).head? ≠ some sid) →
    alGet m' sid = alGet m sid := by
  induction fs with
  | nil =>
    intro m m' sid h _
    injection h with h
    rw [h]
  | cons f fs ih =>
    intro m m' sid h hall
    unfold groupFieldsAux at h
    cases hstep : groupStep m f with
    | none =>
      rw [hstep] at h
      exact Option.noConfusion h
    | some m1 =>
      rw [hstep] at h
      rw [ih m1 m' sid h (fun g hg => hall g (List.mem_cons_of_mem _ hg))]
      exact groupStep_alGet_of_head_ne m m1 f sid hstep (hall f (List.mem_cons_self ..))

theorem section_mapping_label_inj (sid sid' label : String)
    (h : (sid, label) ∈ SECTION_MAPPING) (h' : (sid', label) ∈ SECTION_MAPPING) :
    sid = sid' := by
  simp only [SECTION_MAPPING, List.mem_cons, List.not_mem_nil, or_false,
    Prod.mk.injEq] at h h'
  rcases h with ⟨rfl, rfl⟩ | ⟨rfl, rfl⟩ | ⟨rfl, rfl⟩ | ⟨rfl, rfl⟩ <;>
    rcases h' with ⟨rfl, h2⟩ | ⟨rfl, h2⟩ | ⟨rfl, h2⟩ | ⟨rfl, h2⟩ <;>
    first
      | rfl
      | exact absurd h2 (by decide)

/-- C4 counterexample: the input declares the "parents" section with an
empty body, so the section is present in the input, yet `group` emits no
field at all — the output is not the fixed order restricted to the sections
present in the input (which would be the one-element list with label
"Parents"). -/
theorem claim_C4_counterexample :
    _group_fields [⟨"parents", ([] : FieldBody)⟩] = some []
    ∧ (splitWs "parents").head? = some "parents"
    ∧ ("parents", "Parents") ∈ SECTION_MAPPING :=
  ⟨rfl, rfl, by decide⟩

/-- C4 amended: the top-level fields emitted by `group` always appear in
the fixed order [Parents, Properties, Attributes, Relationships] (the
emitted labels form a sublist of that order for every input, so the output
order never depends on the input order); a section absent from the input is
omitted entirely; and, universally, a known section whose accumulated
content ends up empty — in particular one present in the input only through
a single-token field with an empty body — is omitted from the output. -/
theorem claim_C4_amended (fields : List FieldEntry) (out : List (String × OutputBody))
    (h : _group_fields fields = some out) :
    List.Sublist (out.map Prod.fst) (SECTION_MAPPING.map Prod.snd)
    ∧ (∀ sid label, (sid, label) ∈ SECTION_MAPPING →
        (∀ f ∈ fields, (splitWs f.name).head? ≠ some sid) →
        label ∉ out.map Prod.fst)
    ∧ (∀ (sid label : String) (mfin : SectionMap), (sid, label) ∈ SECTION_MAPPING →
        groupFieldsAux [] fields = some mfin →
        contentLen (sectionGetD mfin sid) = 0 →
        label ∉ out.map Prod.fst) := by
  unfold _group_fields at h
  cases hg : groupFieldsAux [] fields with
  | none =>
    rw [hg] at h
    exact Option.noConfusion h
  | some m =>
    rw [hg] at h
    injection h with h
    rw [← h]
    refine ⟨?_, ?_, ?_⟩
    · exact emitSectionsAux_map_fst_sublist m SECTION_MAPPING
    · intro sid label hmem hall hcontra
      obtain ⟨sid', hmem', hpos⟩ :=
        emitSectionsAux_mem_map_fst m SECTION_MAPPING label hcontra
      have heq : sid' = sid := section_mapping_label_inj sid' sid label hmem' hmem
      subst heq
      have hget := groupFieldsAux_alGet_untouched fields [] m sid' hg hall
      rw [sectionGetD, hget] at hpos
      simp [alGet, contentLen] at hpos
    · intro sid label mfin hmem hgf hzero hcontra
      injection hgf with hgf
      subst hgf
      obtain ⟨sid', hmem', hpos⟩ :=
        emitSectionsAux_mem_map_fst m SECTION_MAPPING label hcontra
      have heq : sid' = sid := section_mapping_label_inj sid' sid label hmem' hmem
      subst heq
      rw [hzero] at hpos
      exact Nat.lt_irrefl 0 hpos

/-- C4 amended witness: the input lists the Relationships section before
the Parents section, and the emitted labels [Parents, Relationships] are a
sublist of the fixed order; the absent Attributes section is omitted. -/
theorem claim_C4_amended_witness :
    List.Sublist
      ((([("Parents", OutputBody.direct [.atom "p"]),
          ("Relationships", OutputBody.wrapped [("r", [.atom "b"])])] :
            List (String × OutputBody)).map Prod.fst))
      (SECTION_MAPPING.map Prod.snd) :=
  (claim_C4_amended [⟨"relationship r", [.atom "b"]⟩, ⟨"parents", [.atom "p"]⟩]
    [("Parents", OutputBody.direct [.atom "p"]),
     ("Relationships", OutputBody.wrapped [("r", [.atom "b"])])] rfl).1

theorem emitSectionsAux_congr (ks : List (String × String)) (m m' : SectionMap)
    (h : ∀ p ∈ ks, sectionGetD m p.1 = sectionGetD m' p.1) :
    emitSectionsAux m ks = emitSectionsAux m' ks := by
  induction ks with
  | nil => rfl
  | cons p rest ih =>
    obtain ⟨sid, label⟩ := p
    have h1 : sectionGetD m sid = sectionGetD m' sid := h (sid, label) (by simp)
    simp only [emitSectionsAux]
    rw [h1, ih (fun q hq => h q (List.mem_cons_of_mem _ hq))]

theorem groupFieldsAux_filter_known (fs : List FieldEntry) :
    ∀ m m' : SectionMap,
    (∀ sid ∈ SECTION_MAPPING.map Prod.fst, sectionGetD m sid = sectionGetD m' sid) →
    (∀ f ∈ fs, splitWs f.name ≠ []) →
    ∃ r r', groupFieldsAux m fs = some r
      ∧ groupFieldsAux m' (fs.filter isKnownField) = some r'
      ∧ (∀ sid ∈ SECTION_MAPPING.map Prod.fst, sectionGetD r sid = sectionGetD r' sid) := by
  induction fs with
  | nil =>
    intro m m' hagree _
    exact ⟨m, m', rfl, rfl, hagree⟩
  | cons f fs ih =>
    intro m m' hagree hall
    have hne := hall f (List.mem_cons_self ..)
    have htail : ∀ g ∈ fs, splitWs g.name ≠ [] :=
      fun g hg => hall g (List.mem_cons_of_mem _ hg)
    cases hs : splitWs f.name with
    | nil => exact absurd hs hne
    | cons k rest =>
      cases rest with
      | nil =>
        have hstep : ∀ mm : SectionMap,
            groupStep mm f = some (alSet mm k (.wholeBody f.body)) := by
          intro mm
          unfold groupStep
          rw [hs]
        by_cases hk : k ∈ SECTION_MAPPING.map Prod.fst
        · have hkeep : isKnownField f = true := by
            unfold isKnownField
            rw [hs]
            simpa using hk
          have hfilter : (f :: fs).filter isKnownField = f :: fs.filter isKnownField := by
            simp [List.filter, hkeep]
          obtain ⟨r, r', hr, hr', hagr⟩ := ih
            (alSet m k (.wholeBody f.body)) (alSet m' k (.wholeBody f.body))
            (by
              intro sid hsid
              by_cases hks : k = sid
              · subst hks
                unfold sectionGetD
                rw [alGet_alSet_self, alGet_alSet_self]
              · unfold sectionGetD
                rw [alGet_alSet_ne m k sid _ hks, alGet_alSet_ne m' k sid _ hks]
                exact hagree sid hsid)
            htail
          refine ⟨r, r', ?_, ?_, hagr⟩
          · unfold groupFieldsAux
            rw [hstep m]
            exact hr
          · rw [hfilter]
            unfold groupFieldsAux
            rw [hstep m']
            exact hr'
        · have hdrop : isKnownField f = false := by
            unfold isKnownField
            rw [hs]
            simpa using hk
          have hfilter : (f :: fs).filter isKnownField = fs.filter isKnownField := by
            simp [List.filter, hdrop]
          obtain ⟨r, r', hr, hr', hagr⟩ := ih (alSet m k (.wholeBody f.body)) m'
            (by
              intro sid hsid
              have hks : k ≠ sid := fun he => hk (he ▸ hsid)
              unfold sectionGetD
              rw [alGet_alSet_ne m k sid _ hks]
              exact hagree sid hsid)
            htail
          refine ⟨r, r', ?_, ?_, hagr⟩
          · unfold groupFieldsAux
            rw [hstep m]
            exact hr
          · rw [hfilter]
            exact hr'
      | cons second tail =>
        have hstep : ∀ mm : SectionMap, groupStep mm f =
            some (alSet mm k (sectionAppend (sectionGetD mm k) second f.body)) := by
          intro mm
          unfold groupStep
          rw [hs]
        by_cases hk : k ∈ SECTION_MAPPING.map Prod.fst
        · have hkeep : isKnownField f = true := by
            unfold isKnownField
            rw [hs]
            simpa using hk
          have hfilter : (f :: fs).filter isKnownField = f :: fs.filter isKnownField := by
            simp [List.filter, hkeep]
          have hagk : sectionGetD m k = sectionGetD m' k := hagree k hk
          obtain ⟨r, r', hr, hr', hagr⟩ := ih
            (alSet m k (sectionAppend (sectionGetD m k) second f.body))
            (alSet m' k (sectionAppend (sectionGetD m' k) second f.body))
            (by
              intro sid hsid
              by_cases hks : k = sid
              · subst hks
                rw [hagk]
                unfold sectionGetD
                rw [alGet_alSet_self, alGet_alSet_self]
              · unfold sectionGetD
                rw [alGet_alSet_ne m k sid _ hks, alGet_alSet_ne m' k sid _ hks]
                exact hagree sid hsid)
            htail
          refine ⟨r, r', ?_, ?_, hagr⟩
          · unfold groupFieldsAux
            rw [hstep m]
            exact hr
          · rw [hfilter]
            unfold groupFieldsAux
            rw [hstep m']
            exact hr'
        · have hdrop : isKnownField f = false := by
            unfold isKnownField
            rw [hs]
            simpa using hk
          have hfilter : (f :: fs).filter isKnownField = fs.filter isKnownField := by
            simp [List.filter, hdrop]
          obtain ⟨r, r', hr, hr', hagr⟩ := ih
            (alSet m k (sectionAppend (sectionGetD m k) second f.body)) m'
            (by
              intro sid hsid
              have hks : k ≠ sid := fun he => hk (he ▸ hsid)
              unfold sectionGetD
              rw [alGet_alSet_ne m k sid _ hks]
              exact hagree sid hsid)
            htail
          refine ⟨r, r', ?_, ?_, hagr⟩
          · unfold groupFieldsAux
            rw [hstep m]
            exact hr
          · rw [hfilter]
            exact hr'

/-- C5: field pairs whose section key (first name token) is not one of the
four known keys contribute nothing to the output of `group` — filtering
them out of the input leaves the result unchanged — and as long as every
name has at least one token, grouping succeeds (no exception is raised). -/
theorem claim_C5 (fields : List FieldEntry)
    (hall : ∀ f ∈ fields, splitWs f.name ≠ []) :
    (∃ out, _group_fields fields = some out)
    ∧ _group_fields fields = _group_fields (fields.filter isKnownField) := by
  obtain ⟨r, r', hr, hr', hagr⟩ :=
    groupFieldsAux_filter_known fields [] [] (fun _ _ => rfl) hall
  have hemit : emitSections r = emitSections r' :=
    emitSectionsAux_congr SECTION_MAPPING r r'
      (fun p hp => hagr p.1 (List.mem_map_of_mem Prod.fst hp))
  unfold _group_fields
  rw [hr, hr']
  exact ⟨⟨emitSections r, rfl⟩, congrArg some hemit⟩

/-- C5 witness: a field list with the unknown section key "requirements"
groups without error and yields the same output as the list with that pair
removed. -/
theorem claim_C5_witness :
    (∃ out, _group_fields
        [⟨"requirements X", [.atom "q"]⟩, ⟨"property p1", [.atom "v"]⟩] = some out)
    ∧ _group_fields [⟨"requirements X", [.atom "q"]⟩, ⟨"property p1", [.atom "v"]⟩] =
        _group_fields
          ([⟨"requirements X", [.atom "q"]⟩, ⟨"property p1", [.atom "v"]⟩].filter
            isKnownField) :=
  claim_C5 [⟨"requirements X", [.atom "q"]⟩, ⟨"property p1", [.atom "v"]⟩]
    (by decide)

theorem merge_cons (docnames : List String) (objects : Objects)
    (p : String × ToscaObject) (rest : Objects) :
    ToscaDomain.merge_domaindata docnames objects (p :: rest) =
      ToscaDomain.merge_domaindata docnames
        (if p.2.doc ∈ docnames then alSet objects p.1 p.2 else objects) rest := rfl

theorem merge_alGet_of_not_mem_keys (docnames : List String) (other : Objects) :
    ∀ (objects : Objects) (n : String), n ∉ other.map Prod.fst →
    alGet (ToscaDomain.merge_domaindata docnames objects other) n = alGet objects n := by
  induction other with
  | nil => intro o n _; rfl
  | cons p rest ih =>
    intro o n hn
    simp only [List.map_cons, List.mem_cons] at hn
    push_neg at hn
    rw [merge_cons, ih _ n hn.2]
    by_cases hd : p.2.doc ∈ docnames
    · rw [if_pos hd, alGet_alSet_ne _ _ _ _ (Ne.symm hn.1)]
    · rw [if_neg hd]

theorem merge_alGet_owned (docnames : List String) (other : Objects) :
    ∀ (objects : Objects) (n : String) (o : ToscaObject),
    keysNodup other → alGet other n = some o → o.doc ∈ docnames →
    alGet (ToscaDomain.merge_domaindata docnames objects other) n = some o := by
  induction other with
  | nil => intro _ n o _ hget; exact absurd hget (by simp [alGet])
  | cons p rest ih =>
    intro objects n o hnd hget hd
    obtain ⟨k, v⟩ := p
    unfold keysNodup at hnd
    simp only [List.map_cons, List.nodup_cons] at hnd
    rw [merge_cons]
    by_cases hk : k = n
    · subst hk
      simp only [alGet, if_pos rfl] at hget
      injection hget with hget
      subst hget
      rw [merge_alGet_of_not_mem_keys docnames rest _ k hnd.1]
      simp only [if_pos hd]
      exact alGet_alSet_self ..
    · simp only [alGet, if_neg hk] at hget
      exact ih _ n o hnd.2 hget hd

theorem merge_alGet_not_owned (docnames : List String) (other : Objects) :
    ∀ (objects : Objects) (n : String),
    keysNodup other →
    (∀ o : ToscaObject, alGet other n = some o → o.doc ∉ docnames) →
    alGet (ToscaDomain.merge_domaindata docnames objects other) n = alGet objects n := by
  induction other with
  | nil => intro _ n _ _; rfl
  | cons p rest ih =>
    intro objects n hnd hno
    obtain ⟨k, v⟩ := p
    unfold keysNodup at hnd
    simp only [List.map_cons, List.nodup_cons] at hnd
    rw [merge_cons]
    by_cases hk : k = n
    · subst hk
      have hv : v.doc ∉ docnames := hno v (by simp [alGet])
      rw [if_neg hv]
      exact merge_alGet_of_not_mem_keys docnames rest objects k hnd.1
    · have hno' : ∀ o : ToscaObject, alGet rest n = some o → o.doc ∉ docnames := by
        intro o ho
        exact hno o (by simp [alGet, hk, ho])
      by_cases hd : v.doc ∈ docnames
      · rw [if_pos hd, ih _ n hnd.2 hno', alGet_alSet_ne _ _ _ _ hk]
      · rw [if_neg hd, ih _ n hnd.2 hno']

theorem merge_eq_self (docnames : List String) (other : Objects) :
    ∀ T : Objects,
    (∀ p ∈ other, p.2.doc ∈ docnames → alGet T p.1 = some p.2) →
    ToscaDomain.merge_domaindata docnames T other = T := by
  induction other with
  | nil => intro T _; rfl
  | cons p rest ih =>
    intro T hT
    rw [merge_cons]
    by_cases hd : p.2.doc ∈ docnames
    · rw [if_pos hd, alSet_eq_self T p.1 p.2 (hT p (List.mem_cons_self ..) hd)]
      exact ih T (fun q hq hqd => hT q (List.mem_cons_of_mem _ hq) hqd)
    · rw [if_neg hd]
      exact ih T (fun q hq hqd => hT q (List.mem_cons_of_mem _ hq) hqd)

/-- C7: `merge_domaindata` adopts exactly the incoming entries whose
object's document is owned (such an entry is afterwards looked up to the
incoming object, overwriting any previous entry for the name), leaves every
other name's lookup unchanged, never introduces an entry whose document is
not owned, and merging the same incoming table twice yields the same table
as merging it once. -/
theorem claim_C7 (docnames : List String) (objects other : Objects)
    (hnd : keysNodup objects) (hnd' : keysNodup other) :
    (∀ (n : String) (o : ToscaObject), alGet other n = some o → o.doc ∈ docnames →
        alGet (ToscaDomain.merge_domaindata docnames objects other) n = some o)
    ∧ (∀ n : String, (∀ o : ToscaObject, alGet other n = some o → o.doc ∉ docnames) →
        alGet (ToscaDomain.merge_domaindata docnames objects other) n = alGet objects n)
    ∧ (∀ (n : String) (o : ToscaObject), alGet objects n = none →
        alGet (ToscaDomain.merge_domaindata docnames objects other) n = some o →
        o.doc ∈ docnames)
    ∧ ToscaDomain.merge_domaindata docnames
        (ToscaDomain.merge_domaindata docnames objects other) other =
        ToscaDomain.merge_domaindata docnames objects other := by
  have hkeep := hnd
  refine ⟨?_, ?_, ?_, ?_⟩
  · intro n o h hd
    exact merge_alGet_owned docnames other objects n o hnd' h hd
  · intro n h
    exact merge_alGet_not_owned docnames other objects n hnd' h
  · intro n o hnone hsome
    by_cases hcase : ∀ o' : ToscaObject, alGet other n = some o' → o'.doc ∉ docnames
    · rw [merge_alGet_not_owned docnames other objects n hnd' hcase, hnone] at hsome
      exact Option.noConfusion hsome
    · push_neg at hcase
      obtain ⟨o', ho', hd'⟩ := hcase
      rw [merge_alGet_owned docnames other objects n o' hnd' ho' hd'] at hsome
      injection hsome with hsome
      rw [← hsome]
      exact hd'
  · apply merge_eq_self
    intro p hp hd
    exact merge_alGet_owned docnames other objects p.1 p.2 hnd'
      (alGet_of_mem other p.1 p.2 hnd' (by simpa using hp)) hd

/-- C7 witness: from the spec's example, `merge({docA}, {name ↦ docA,
other ↦ docB})` into the empty table adopts only `name`; `other` is not
introduced, and merging the incoming table a second time changes
nothing. -/
theorem claim_C7_witness :
    alGet (ToscaDomain.merge_domaindata ["docA"] []
        [("name", ⟨"docA", "node_type"⟩), ("other", ⟨"docB", "node_type"⟩)]) "name" =
      some ⟨"docA", "node_type"⟩
    ∧ alGet (ToscaDomain.merge_domaindata ["docA"] []
        [("name", ⟨"docA", "node_type"⟩), ("other", ⟨"docB", "node_type"⟩)]) "other" =
      none
    ∧ ToscaDomain.merge_domaindata ["docA"]
        (ToscaDomain.merge_domaindata ["docA"] []
          [("name", ⟨"docA", "node_type"⟩), ("other", ⟨"docB", "node_type"⟩)])
        [("name", ⟨"docA", "node_type"⟩), ("other", ⟨"docB", "node_type"⟩)] =
      ToscaDomain.merge_domaindata ["docA"] []
        [("name", ⟨"docA", "node_type"⟩), ("other", ⟨"docB", "node_type"⟩)] := by
  have h := claim_C7 ["docA"] []
    [("name", ⟨"docA", "node_type"⟩), ("other", ⟨"docB", "node_type"⟩)]
    (by decide) (by decide)
  refine ⟨h.1 "name" ⟨"docA", "node_type"⟩ (by decide) (by decide), ?_, h.2.2.2⟩
  have h2 := h.2.1 "other" (by
    intro o ho
    simp [alGet] at ho
    subst ho
    decide)
  exact h2

end SphinxTosca
